import Mathlib

/-!
Shallow embedding of `src/unzipper.py`, a recursive extractor for `.zip` and
`.gz` files.  The filesystem is modelled as an explicit state (`FS`), paths as
strings with POSIX join semantics, and the behaviour of the `zipfile` / `gzip`
library calls as oracles (`ZipBehavior`, `GzBehavior`) supplied as parameters,
since those libraries are outside the repository.  Python exceptions that the
script does not catch are modelled by `PyError` values that abort the run.
-/

namespace Unzipper

/-- Byte sequences standing for file contents. -/
abbrev Bytes := List Nat

/-- Python `str.endswith` (case-sensitive, exact suffix match on characters). -/
def endsWithS (s suf : String) : Bool := suf.data.isSuffixOf s.data

/-- Python `str.startswith`. -/
def startsWithS (s pre : String) : Bool := pre.data.isPrefixOf s.data

/-- Python slicing `s[:-n]` for `n ≥ 1`: all but the last `n` characters. -/
def dropRightS (s : String) (n : Nat) : String :=
  String.mk (s.data.take (s.data.length - n))

/-- `posixpath.join` restricted to two arguments, as the script uses it. -/
def pathJoin (a b : String) : String :=
  if startsWithS b "/" then b
  else if a == "" || endsWithS a "/" then a ++ b
  else a ++ "/" ++ b

/-- `os.path.basename`: the part of the path after the last slash. -/
def basename (p : String) : String :=
  String.mk ((p.data.reverse.takeWhile (fun c => !(c == '/'))).reverse)

/-- Snapshot of the filesystem: regular files with their contents, and
directories.  Only what the script observes or mutates is tracked. -/
structure FS where
  files : List (String × Bytes)
  dirs : List String
deriving DecidableEq

/-- Paths of the regular files present in the snapshot. -/
def filePaths (fs : FS) : List String := fs.files.map Prod.fst

/-- Open a file for reading: `none` models `FileNotFoundError`. -/
def readFile (fs : FS) (p : String) : Option Bytes :=
  (fs.files.find? (fun e => e.1 == p)).map Prod.snd

/-- Open a file for writing (`'wb'`): create or truncate-and-overwrite. -/
def writeFile (fs : FS) (p : String) (b : Bytes) : FS :=
  ⟨(p, b) :: fs.files.filter (fun e => !(e.1 == p)), fs.dirs⟩

/-- `os.remove`. -/
def removeFile (fs : FS) (p : String) : FS :=
  ⟨fs.files.filter (fun e => !(e.1 == p)), fs.dirs⟩

/-- `os.mkdir` (the success case). -/
def mkdirFS (fs : FS) (p : String) : FS := ⟨fs.files, p :: fs.dirs⟩

/-- `os.path.exists`: true for files and for directories. -/
def pathExists (fs : FS) (p : String) : Bool :=
  fs.dirs.contains p || (filePaths fs).contains p

/-- `os.path.isdir`. -/
def isDirFS (fs : FS) (p : String) : Bool := fs.dirs.contains p

/-- Split a character sequence at `'/'` separators, like `str.split('/')`. -/
def splitSlash : List Char → List (List Char)
  | [] => [[]]
  | c :: rest =>
    if c == '/' then [] :: splitSlash rest
    else
      match splitSlash rest with
      | [] => [[c]]
      | h :: t => (c :: h) :: t

/-- Rejoin path components with `'/'` separators. -/
def joinComponents : List (List Char) → List Char
  | [] => []
  | [x] => x
  | x :: y :: t => x ++ '/' :: joinComponents (y :: t)

/-- A component survives `zipfile`'s member-name sanitization unless it is
empty, `"."` or `".."`. -/
def goodComponent (x : List Char) : Bool :=
  !(x == [] || x == ['.'] || x == ['.', '.'])

/-- The member-name sanitization `zipfile.ZipFile._extract_member` applies
before joining an archive member's name under the destination directory:
split on the separator and drop empty, `"."` and `".."` components. -/
def sanitizeEntryName (r : String) : String :=
  String.mk (joinComponents ((splitSlash r.data).filter goodComponent))

/-- Observable behaviour of `zipfile.ZipFile(path)` plus `extractall` on given
archive bytes: the member entries written before returning (possibly a partial
list), and whether the call completed without raising `zipfile.BadZipFile`. -/
structure ZipBehavior where
  written : List (String × Bytes)
  ok : Bool
deriving DecidableEq

/-- Observable behaviour of draining `gzip.open(path)` with
`shutil.copyfileobj`: the decompressed bytes written before returning or
raising `gzip.BadGzipFile`, and whether decompression completed. -/
structure GzBehavior where
  written : Bytes
  ok : Bool
deriving DecidableEq

/-- Python exceptions the script never catches. -/
inductive PyError where
  | fileNotFound
  | isADirectory
deriving DecidableEq

/-- Result of processing one file: normal completion carrying the
`zip_success or gzip_success` flag, or an uncaught exception. -/
inductive StepResult where
  | ok (success : Bool)
  | abort (e : PyError)
deriving DecidableEq

/-- How a whole invocation ends. -/
inductive RunOutcome where
  | completed
  | mkdirFailed
  | fuelExhausted
  | uncaught (e : PyError)
  | valueError
  | notADirectoryError
deriving DecidableEq

/-- `zip_ref.extractall(final_destination)`: write every reported entry under
`dest`, sanitized member name joined to the destination. -/
def extractAll (dest : String) (entries : List (String × Bytes)) (fs : FS) : FS :=
  entries.foldl (fun acc e => writeFile acc (pathJoin dest (sanitizeEntryName e.1)) e.2) fs

/-- Suffix dispatch and extraction for one file (lines 54-80 of the script):
returns the new state, an uncaught exception if one was raised, and the
success flag (`zip_success or gzip_success`). -/
def extractStep (zs : Bytes → ZipBehavior) (gs : Bytes → GzBehavior) (dest : String)
    (fs : FS) (dirpath name : String) : FS × Option PyError × Bool :=
  let file_path := pathJoin dirpath name
  if endsWithS name ".zip" then
    match readFile fs file_path with
    | none => (fs, some .fileNotFound, false)
    | some c =>
      let zb := zs c
      (extractAll dest zb.written fs, none, zb.ok)
  else if endsWithS name ".gz" then
    match readFile fs file_path with
    | none => (fs, some .fileNotFound, false)
    | some c =>
      let outPath := pathJoin dest (dropRightS name 3)
      if endsWithS outPath "/" || isDirFS fs outPath then
        (fs, some .isADirectory, false)
      else
        let gb := gs c
        (writeFile fs outPath gb.written, none, gb.ok)
  else (fs, none, false)

/-- One iteration of the inner loop of `parse_root_directory` (lines 51-85):
extraction, then the flag-guarded deletion of the source file immediately
after its own extraction. -/
def processFile (zs : Bytes → ZipBehavior) (gs : Bytes → GzBehavior) (delete : Bool)
    (dest : String) (fs : FS) (dirpath name : String) : FS × StepResult :=
  match extractStep zs gs dest fs dirpath name with
  | (fs1, some e, _) => (fs1, .abort e)
  | (fs1, none, success) =>
    if delete && success then (removeFile fs1 (pathJoin dirpath name), .ok success)
    else (fs1, .ok success)

/-- The walk over the discovered files in order, threading the filesystem.
An uncaught exception aborts the remainder of the walk. -/
def runWalk (zs : Bytes → ZipBehavior) (gs : Bytes → GzBehavior) (delete : Bool)
    (dest : String) : FS → List (String × String) → FS × Option PyError
  | fs, [] => (fs, none)
  | fs, (d, n) :: rest =>
    match processFile zs gs delete dest fs d n with
    | (fs1, .ok _) => runWalk zs gs delete dest fs1 rest
    | (fs1, .abort e) => (fs1, some e)

/-- Candidate output-directory paths: `root/base` first, then `root/base_1`,
`root/base_2`, …. -/
def destCand (root base : String) : Nat → String
  | 0 => pathJoin root base
  | k + 1 => pathJoin root (base ++ "_" ++ Nat.repr (k + 1))

/-- The `while os.path.exists(final_destination)` loop (lines 37-40), with
explicit fuel because the source loop carries no bound. -/
def destLoop (fs : FS) (root base cur : String) (counter fuel : Nat) : Option String :=
  match fuel with
  | 0 => none
  | f + 1 =>
    if pathExists fs cur then
      destLoop fs root base (pathJoin root (base ++ "_" ++ Nat.repr counter)) (counter + 1) f
    else some cur

/-- Output-directory name resolution (lines 33-40). -/
def resolveDestination (fs : FS) (root : String) (fuel : Nat) : Option String :=
  let base := basename root ++ "_unzip"
  destLoop fs root base (pathJoin root base) 1 fuel

/-- `parse_root_directory` (lines 27-85).  `mkdirFails` is an environment
oracle for `os.mkdir` failing at line 44 (permissions, races, disk full);
`walk` is the `(dirpath, filename)` sequence produced by `os.walk(root)`,
taken as a parameter because its order is OS-dependent. -/
def parse_root_directory (zs : Bytes → ZipBehavior) (gs : Bytes → GzBehavior)
    (mkdirFails : Bool) (fuel : Nat) (walk : List (String × String))
    (fs : FS) (root : String) (delete : Bool) : FS × RunOutcome :=
  match resolveDestination fs root fuel with
  | none => (fs, .fuelExhausted)
  | some dest =>
    if mkdirFails then (fs, .mkdirFailed)
    else
      match runWalk zs gs delete dest (mkdirFS fs dest) walk with
      | (fs2, none) => (fs2, .completed)
      | (fs2, some e) => (fs2, .uncaught e)

/-- `main` (lines 87-92): the two precondition checks, then the parse. -/
def mainFn (zs : Bytes → ZipBehavior) (gs : Bytes → GzBehavior)
    (mkdirFails : Bool) (fuel : Nat) (walk : List (String × String))
    (fs : FS) (root : String) (delete : Bool) : FS × RunOutcome :=
  if root == "" then (fs, .valueError)
  else if !(isDirFS fs root) then (fs, .notADirectoryError)
  else parse_root_directory zs gs mkdirFails fuel walk fs root delete

/-- The `__main__` block (lines 94-101).  `argv` is the full `sys.argv`,
program name included. -/
def cliMain (zs : Bytes → ZipBehavior) (gs : Bytes → GzBehavior)
    (mkdirFails : Bool) (fuel : Nat) (walk : List (String × String))
    (argv : List String) (fs : FS) : FS × RunOutcome :=
  let delete := argv.contains "--delete"
  let root :=
    match argv with
    | _ :: a1 :: _ => if a1 == "--delete" then "" else a1
    | _ => ""
  mainFn zs gs mkdirFails fuel walk fs root delete

/-! ## Basic lemmas about the filesystem model -/

theorem mem_filePaths_writeFile {fs : FS} {p q : String} {b : Bytes} :
    p ∈ filePaths (writeFile fs q b) ↔ p = q ∨ p ∈ filePaths fs := by
  simp only [filePaths, writeFile, List.map_cons, List.mem_cons, List.mem_map, List.mem_filter,
    Bool.not_eq_true', beq_eq_false_iff_ne, ne_eq]
  constructor
  · rintro (rfl | ⟨x, ⟨hx, _⟩, rfl⟩)
    · exact Or.inl rfl
    · exact Or.inr ⟨x, hx, rfl⟩
  · rintro (rfl | ⟨x, hx, rfl⟩)
    · exact Or.inl rfl
    · by_cases hq : x.1 = q
      · exact Or.inl hq
      · exact Or.inr ⟨x, ⟨hx, hq⟩, rfl⟩

theorem mem_filePaths_removeFile {fs : FS} {p q : String} :
    p ∈ filePaths (removeFile fs q) ↔ p ∈ filePaths fs ∧ p ≠ q := by
  simp only [filePaths, removeFile, List.mem_map, List.mem_filter, Bool.not_eq_true',
    beq_eq_false_iff_ne, ne_eq]
  constructor
  · rintro ⟨x, ⟨hx, hne⟩, rfl⟩
    exact ⟨⟨x, hx, rfl⟩, hne⟩
  · rintro ⟨⟨x, hx, rfl⟩, hne⟩
    exact ⟨x, ⟨hx, hne⟩, rfl⟩

theorem mem_of_readFile {fs : FS} {p : String} {c : Bytes}
    (h : readFile fs p = some c) : p ∈ filePaths fs := by
  simp only [readFile, Option.map_eq_some'] at h
  obtain ⟨e, he, rfl⟩ := h
  have h1 := List.mem_of_find?_eq_some he
  have h2 := List.find?_some he
  simp only [beq_iff_eq] at h2
  exact h2 ▸ List.mem_map.mpr ⟨e, h1, rfl⟩

theorem readFile_writeFile_self {fs : FS} {p : String} {b : Bytes} :
    readFile (writeFile fs p b) p = some b := by
  simp [readFile, writeFile]

theorem find?_filter_ne {l : List (String × Bytes)} {p q : String} (hpq : p ≠ q) :
    (l.filter (fun e => !(e.1 == q))).find? (fun e => e.1 == p)
      = l.find? (fun e => e.1 == p) := by
  induction l with
  | nil => rfl
  | cons a l ih =>
    rw [List.filter_cons]
    by_cases ha : a.1 = q
    · rw [if_neg (by simp [ha]), ih, List.find?_cons_of_neg _ (by simp [ha, Ne.symm hpq])]
    · rw [if_pos (by simp [ha])]
      by_cases hap : a.1 = p
      · rw [List.find?_cons_of_pos _ (by simp [hap]), List.find?_cons_of_pos _ (by simp [hap])]
      · rw [List.find?_cons_of_neg _ (by simp [hap]), ih,
          List.find?_cons_of_neg _ (by simp [hap])]

theorem readFile_writeFile_ne {fs : FS} {p q : String} {b : Bytes} (hpq : p ≠ q) :
    readFile (writeFile fs q b) p = readFile fs p := by
  have h2 : (q == p) = false := by simp [Ne.symm hpq]
  simp only [readFile, writeFile, List.find?_cons, h2]
  rw [find?_filter_ne hpq]

theorem readFile_removeFile_ne {fs : FS} {p q : String} (hpq : p ≠ q) :
    readFile (removeFile fs q) p = readFile fs p := by
  simp only [readFile, removeFile]
  rw [find?_filter_ne hpq]

theorem extractAll_nil {dest : String} {fs : FS} : extractAll dest [] fs = fs := rfl

theorem extractAll_cons {dest : String} {e : String × Bytes} {E : List (String × Bytes)} {fs : FS} :
    extractAll dest (e :: E) fs
      = extractAll dest E (writeFile fs (pathJoin dest (sanitizeEntryName e.1)) e.2) := rfl

theorem mem_filePaths_extractAll {dest : String} {E : List (String × Bytes)} {fs : FS} {p : String} :
    p ∈ filePaths (extractAll dest E fs)
      ↔ p ∈ filePaths fs ∨ ∃ e ∈ E, p = pathJoin dest (sanitizeEntryName e.1) := by
  induction E generalizing fs with
  | nil => simp [extractAll_nil]
  | cons e E ih =>
    rw [extractAll_cons, ih]
    rw [mem_filePaths_writeFile]
    constructor
    · rintro ((rfl | h) | h)
      · exact Or.inr ⟨e, List.mem_cons_self e E, rfl⟩
      · exact Or.inl h
      · obtain ⟨x, hx, rfl⟩ := h
        exact Or.inr ⟨x, List.mem_cons_of_mem e hx, rfl⟩
    · rintro (h | ⟨x, hx, rfl⟩)
      · exact Or.inl (Or.inr h)
      · rcases List.mem_cons.mp hx with rfl | hx
        · exact Or.inl (Or.inl rfl)
        · exact Or.inr ⟨x, hx, rfl⟩

theorem readFile_extractAll_not_mem {dest : String} {E : List (String × Bytes)} {fs : FS} {p : String}
    (h : ∀ e ∈ E, pathJoin dest (sanitizeEntryName e.1) ≠ p) :
    readFile (extractAll dest E fs) p = readFile fs p := by
  induction E generalizing fs with
  | nil => rfl
  | cons e E ih =>
    rw [extractAll_cons, ih (fun x hx => h x (List.mem_cons_of_mem e hx))]
    exact readFile_writeFile_ne (fun hp => h e (List.mem_cons_self e E) hp.symm)

theorem readFile_extractAll_mem {dest : String} {E : List (String × Bytes)} {fs : FS}
    {r : String} {b : Bytes}
    (hnd : (E.map (fun e => pathJoin dest (sanitizeEntryName e.1))).Nodup)
    (he : (r, b) ∈ E) :
    readFile (extractAll dest E fs) (pathJoin dest (sanitizeEntryName r)) = some b := by
  induction E generalizing fs with
  | nil => exact absurd he (List.not_mem_nil _)
  | cons e E ih =>
    rw [List.map_cons, List.nodup_cons] at hnd
    rcases List.mem_cons.mp he with rfl | he'
    · rw [extractAll_cons]
      have hnot : ∀ x ∈ E, pathJoin dest (sanitizeEntryName x.1)
          ≠ pathJoin dest (sanitizeEntryName (r, b).1) := by
        intro x hx hcol
        exact hnd.1 (by rw [← hcol]; exact List.mem_map.mpr ⟨x, hx, rfl⟩)
      rw [readFile_extractAll_not_mem hnot]
      exact readFile_writeFile_self
    · rw [extractAll_cons]
      exact ih hnd.2 he'

theorem dirs_writeFile {fs : FS} {p : String} {b : Bytes} : (writeFile fs p b).dirs = fs.dirs := rfl

theorem dirs_removeFile {fs : FS} {p : String} : (removeFile fs p).dirs = fs.dirs := rfl

theorem dirs_extractAll {dest : String} {E : List (String × Bytes)} {fs : FS} :
    (extractAll dest E fs).dirs = fs.dirs := by
  induction E generalizing fs with
  | nil => rfl
  | cons e E ih => rw [extractAll_cons, ih]; rfl

/-! ## Lemmas about strings and paths -/

theorem startsWithS_eq_false_iff (s pre : String) :
    startsWithS s pre = false ↔ ¬ (pre.data <+: s.data) := by
  rw [startsWithS, Bool.eq_false_iff, ne_eq]
  exact not_congr List.isPrefixOf_iff_prefix

theorem startsWithS_eq_true_iff (s pre : String) :
    startsWithS s pre = true ↔ pre.data <+: s.data := by
  rw [startsWithS]
  exact List.isPrefixOf_iff_prefix

theorem endsWithS_eq_true_iff (s suf : String) :
    endsWithS s suf = true ↔ suf.data <:+ s.data := by
  rw [endsWithS]
  exact List.isSuffixOf_iff_suffix

theorem startsWithS_append (a b : String) : startsWithS (a ++ b) a = true := by
  rw [startsWithS_eq_true_iff, String.data_append]
  exact List.prefix_append a.data b.data

theorem endsWithS_append_slash (a : String) : endsWithS (a ++ "/") "/" = true := by
  rw [endsWithS_eq_true_iff, String.data_append]
  exact List.suffix_append a.data _

theorem append_empty_str (a : String) : a ++ "" = a := by
  apply String.ext
  rw [String.data_append]
  exact List.append_nil a.data

theorem pathJoin_std (a b : String) (ha : a ≠ "") (ha2 : endsWithS a "/" = false)
    (hb : startsWithS b "/" = false) : pathJoin a b = a ++ "/" ++ b := by
  unfold pathJoin
  rw [if_neg (by simp [hb]), if_neg (by simp [ha, ha2])]

theorem startsWithS_pathJoin (a b : String) (ha : a ≠ "") (ha2 : endsWithS a "/" = false)
    (hb : startsWithS b "/" = false) : startsWithS (pathJoin a b) (a ++ "/") = true := by
  rw [pathJoin_std a b ha ha2 hb]
  exact startsWithS_append (a ++ "/") b

theorem dropRightS_append_of_endsWithS (s suf : String) (h : endsWithS s suf = true) :
    dropRightS s suf.data.length ++ suf = s := by
  rw [endsWithS_eq_true_iff] at h
  obtain ⟨t, ht⟩ := h
  apply String.ext
  rw [String.data_append]
  show (s.data.take (s.data.length - suf.data.length)) ++ suf.data = s.data
  rw [← ht, List.length_append, Nat.add_sub_cancel, List.take_left]

theorem startsWithS_dropRightS (s : String) (n : Nat) (h : startsWithS s "/" = false) :
    startsWithS (dropRightS s n) "/" = false := by
  rw [startsWithS_eq_false_iff] at h ⊢
  intro hpre
  exact h (hpre.trans ( List.take_prefix _ _))

theorem splitSlash_no_slash : ∀ (l : List Char), ∀ x ∈ splitSlash l, '/' ∉ x := by
  intro l
  induction l with
  | nil =>
    intro x hx
    simp only [splitSlash, List.mem_singleton] at hx
    subst hx
    exact List.not_mem_nil _
  | cons c rest ih =>
    intro x hx
    by_cases hc : c = '/'
    · subst hc
      rw [show splitSlash ('/' :: rest) = [] :: splitSlash rest from by simp [splitSlash]] at hx
      rcases List.mem_cons.mp hx with rfl | hx'
      · exact List.not_mem_nil _
      · exact ih x hx'
    · have hcb : (c == '/') = false := by simp [hc]
      cases hsp : splitSlash rest with
      | nil =>
        rw [show splitSlash (c :: rest) = [[c]] from by simp [splitSlash, hcb, hsp]] at hx
        simp only [List.mem_singleton] at hx
        subst hx
        intro hmem
        rcases List.mem_cons.mp hmem with h1 | h1
        · exact hc h1.symm
        · exact List.not_mem_nil _ h1
      | cons h t =>
        rw [show splitSlash (c :: rest) = (c :: h) :: t from by simp [splitSlash, hcb, hsp]] at hx
        rcases List.mem_cons.mp hx with rfl | hx'
        · intro hmem
          rcases List.mem_cons.mp hmem with h1 | h1
          · exact hc h1.symm
          · exact ih h (hsp ▸ List.mem_cons_self h t) h1
        · exact ih x (hsp ▸ List.mem_cons_of_mem h hx')

theorem joinComponents_no_lead_slash (L : List (List Char))
    (hL : ∀ x ∈ L, x ≠ [] ∧ '/' ∉ x) : ¬ (['/'] <+: joinComponents L) := by
  intro hpre
  cases L with
  | nil =>
    rw [show joinComponents [] = [] from rfl] at hpre
    simp at hpre
  | cons x t =>
    obtain ⟨hne, hns⟩ := hL x (List.mem_cons_self x t)
    cases x with
    | nil => exact hne rfl
    | cons c x' =>
      have hc : c ≠ '/' := fun hh => hns (hh ▸ List.mem_cons_self c x')
      cases t with
      | nil =>
        rw [show joinComponents [c :: x'] = c :: x' from rfl] at hpre
        obtain ⟨u, hu⟩ := hpre
        rw [List.singleton_append] at hu
        injection hu with h1 _
        exact hc h1.symm
      | cons y t' =>
        rw [show joinComponents ((c :: x') :: y :: t')
              = c :: (x' ++ '/' :: joinComponents (y :: t')) from rfl] at hpre
        obtain ⟨u, hu⟩ := hpre
        rw [List.singleton_append] at hu
        injection hu with h1 _
        exact hc h1.symm

theorem sanitizeEntryName_not_abs (r : String) :
    startsWithS (sanitizeEntryName r) "/" = false := by
  rw [startsWithS_eq_false_iff]
  show ¬ (['/'] <+: joinComponents ((splitSlash r.data).filter goodComponent))
  apply joinComponents_no_lead_slash
  intro x hx
  obtain ⟨hx1, hx2⟩ := List.mem_filter.mp hx
  refine ⟨?_, splitSlash_no_slash r.data x hx1⟩
  intro hnil
  subst hnil
  simp [goodComponent] at hx2

/-! ## The output-directory naming loop -/

theorem destLoop_spec (fs : FS) (root base : String) :
    ∀ (fuel n : Nat) (d : String),
      destLoop fs root base (destCand root base n) (n + 1) fuel = some d →
      ∃ k, d = destCand root base (n + k) ∧
        pathExists fs (destCand root base (n + k)) = false ∧
        ∀ j < k, pathExists fs (destCand root base (n + j)) = true := by
  intro fuel
  induction fuel with
  | zero =>
    intro n d h
    simp [destLoop] at h
  | succ f ih =>
    intro n d h
    rw [destLoop] at h
    by_cases hcur : pathExists fs (destCand root base n) = true
    · rw [if_pos hcur] at h
      have h' : destLoop fs root base (destCand root base (n + 1)) ((n + 1) + 1) f = some d := h
      obtain ⟨k, hk1, hk2, hk3⟩ := ih (n + 1) d h'
      refine ⟨k + 1, ?_, ?_, ?_⟩
      · rw [show n + (k + 1) = n + 1 + k from by omega]
        exact hk1
      · rw [show n + (k + 1) = n + 1 + k from by omega]
        exact hk2
      · intro j hj
        cases j with
        | zero => simpa using hcur
        | succ j' =>
          rw [show n + (j' + 1) = n + 1 + j' from by omega]
          exact hk3 j' (by omega)
    · rw [if_neg hcur] at h
      refine ⟨0, ?_, ?_, ?_⟩
      · rw [Nat.add_zero]
        exact (Option.some.injEq _ _ ▸ h).symm
      · rw [Nat.add_zero]
        exact Bool.eq_false_iff.mpr hcur
      · intro j hj
        omega

/-! ## Per-file and walk lemmas -/

theorem extractStep_frame (zs : Bytes → ZipBehavior) (gs : Bytes → GzBehavior)
    (dest : String) (fs : FS) (dirpath name : String) (fs1 : FS) (oe : Option PyError) (sc : Bool)
    (hd1 : dest ≠ "") (hd2 : endsWithS dest "/" = false)
    (hn : startsWithS name "/" = false)
    (h : extractStep zs gs dest fs dirpath name = (fs1, oe, sc)) :
    (∀ p ∈ filePaths fs, p ∈ filePaths fs1) ∧
    (∀ p ∈ filePaths fs1, p ∉ filePaths fs → startsWithS p (dest ++ "/") = true) ∧
    fs1.dirs = fs.dirs := by
  rw [extractStep] at h
  by_cases hz : endsWithS name ".zip" = true
  · rw [if_pos hz] at h
    cases hr : readFile fs (pathJoin dirpath name) with
    | none =>
      rw [hr] at h
      obtain ⟨rfl, -, -⟩ := Prod.mk.injEq .. ▸ h
      exact ⟨fun p hp => hp, fun p hp hnp => absurd hp hnp, rfl⟩
    | some c =>
      rw [hr] at h
      have hfs1 : fs1 = extractAll dest (zs c).written fs := (congrArg Prod.fst h).symm
      subst hfs1
      refine ⟨fun p hp => mem_filePaths_extractAll.mpr (Or.inl hp), ?_, dirs_extractAll⟩
      intro p hp hnp
      rcases mem_filePaths_extractAll.mp hp with hp' | ⟨e, _, rfl⟩
      · exact absurd hp' hnp
      · exact startsWithS_pathJoin dest _ hd1 hd2 (sanitizeEntryName_not_abs e.1)
  · rw [if_neg hz] at h
    by_cases hg : endsWithS name ".gz" = true
    · rw [if_pos hg] at h
      cases hr : readFile fs (pathJoin dirpath name) with
      | none =>
        rw [hr] at h
        obtain rfl : fs = fs1 := congrArg Prod.fst h
        exact ⟨fun p hp => hp, fun p hp hnp => absurd hp hnp, rfl⟩
      | some c =>
        rw [hr] at h
        dsimp only at h
        by_cases habort : (endsWithS (pathJoin dest (dropRightS name 3)) "/"
            || isDirFS fs (pathJoin dest (dropRightS name 3))) = true
        · rw [if_pos habort] at h
          obtain rfl : fs = fs1 := congrArg Prod.fst h
          exact ⟨fun p hp => hp, fun p hp hnp => absurd hp hnp, rfl⟩
        · rw [if_neg habort] at h
          have hfs1 : fs1 = writeFile fs (pathJoin dest (dropRightS name 3)) (gs c).written :=
            (congrArg Prod.fst h).symm
          subst hfs1
          refine ⟨fun p hp => mem_filePaths_writeFile.mpr (Or.inr hp), ?_, dirs_writeFile⟩
          intro p hp hnp
          rcases mem_filePaths_writeFile.mp hp with rfl | hp'
          · exact startsWithS_pathJoin dest _ hd1 hd2 (startsWithS_dropRightS name 3 hn)
          · exact absurd hp' hnp
    · rw [if_neg hg] at h
      obtain rfl : fs = fs1 := congrArg Prod.fst h
      exact ⟨fun p hp => hp, fun p hp hnp => absurd hp hnp, rfl⟩

theorem processFile_noDelete_frame (zs : Bytes → ZipBehavior) (gs : Bytes → GzBehavior)
    (dest : String) (fs : FS) (dirpath name : String) (fs1 : FS) (r : StepResult)
    (hd1 : dest ≠ "") (hd2 : endsWithS dest "/" = false)
    (hn : startsWithS name "/" = false)
    (h : processFile zs gs false dest fs dirpath name = (fs1, r)) :
    (∀ p ∈ filePaths fs, p ∈ filePaths fs1) ∧
    (∀ p ∈ filePaths fs1, p ∉ filePaths fs → startsWithS p (dest ++ "/") = true) ∧
    fs1.dirs = fs.dirs := by
  rw [processFile] at h
  cases hes : extractStep zs gs dest fs dirpath name with
  | mk fsm rest =>
    obtain ⟨oe, sc⟩ := rest
    rw [hes] at h
    cases oe with
    | some e =>
      dsimp only at h
      injection h with h1 h2
      subst h1
      exact extractStep_frame zs gs dest fs dirpath name _ (some e) sc hd1 hd2 hn hes
    | none =>
      dsimp only at h
      rw [if_neg (by simp : ¬ ((false && sc) = true))] at h
      injection h with h1 h2
      subst h1
      exact extractStep_frame zs gs dest fs dirpath name _ none sc hd1 hd2 hn hes

theorem runWalk_noDelete_frame (zs : Bytes → ZipBehavior) (gs : Bytes → GzBehavior)
    (dest : String) (hd1 : dest ≠ "") (hd2 : endsWithS dest "/" = false) :
    ∀ (walk : List (String × String)) (fs : FS),
      (∀ p ∈ walk, startsWithS p.2 "/" = false) →
      (∀ q ∈ filePaths fs, q ∈ filePaths (runWalk zs gs false dest fs walk).1) ∧
      (∀ q ∈ filePaths (runWalk zs gs false dest fs walk).1,
        q ∉ filePaths fs → startsWithS q (dest ++ "/") = true) ∧
      (runWalk zs gs false dest fs walk).1.dirs = fs.dirs := by
  intro walk
  induction walk with
  | nil =>
    intro fs _
    exact ⟨fun q hq => hq, fun q hq hnq => absurd hq hnq, rfl⟩
  | cons dn walk ih =>
    intro fs hnames
    obtain ⟨d, n⟩ := dn
    rw [runWalk]
    cases hpf : processFile zs gs false dest fs d n with
    | mk fs1 r =>
      have hfr := processFile_noDelete_frame zs gs dest fs d n fs1 r hd1 hd2
        (hnames (d, n) (List.mem_cons_self _ _)) hpf
      cases r with
      | abort e =>
        exact hfr
      | ok s =>
        have hrest := ih fs1 (fun p hp => hnames p (List.mem_cons_of_mem _ hp))
        refine ⟨fun q hq => hrest.1 q (hfr.1 q hq), ?_, hrest.2.2.trans hfr.2.2⟩
        intro q hq hnq
        by_cases hq1 : q ∈ filePaths fs1
        · exact hfr.2.1 q hq1 hnq
        · exact hrest.2.1 q hq hq1

theorem extractStep_preserves (zs : Bytes → ZipBehavior) (gs : Bytes → GzBehavior)
    (dest : String) (fs : FS) (dirpath name : String) (fsm : FS) (oe : Option PyError) (sc : Bool)
    (h : extractStep zs gs dest fs dirpath name = (fsm, oe, sc)) :
    ∀ p ∈ filePaths fs, p ∈ filePaths fsm := by
  rw [extractStep] at h
  by_cases hz : endsWithS name ".zip" = true
  · rw [if_pos hz] at h
    cases hr : readFile fs (pathJoin dirpath name) with
    | none =>
      rw [hr] at h
      dsimp only at h
      injection h with h1 _
      subst h1
      exact fun p hp => hp
    | some c =>
      rw [hr] at h
      dsimp only at h
      injection h with h1 _
      subst h1
      exact fun p hp => mem_filePaths_extractAll.mpr (Or.inl hp)
  · rw [if_neg hz] at h
    by_cases hg : endsWithS name ".gz" = true
    · rw [if_pos hg] at h
      cases hr : readFile fs (pathJoin dirpath name) with
      | none =>
        rw [hr] at h
        dsimp only at h
        injection h with h1 _
        subst h1
        exact fun p hp => hp
      | some c =>
        rw [hr] at h
        dsimp only at h
        by_cases habort : (endsWithS (pathJoin dest (dropRightS name 3)) "/"
            || isDirFS fs (pathJoin dest (dropRightS name 3))) = true
        · rw [if_pos habort] at h
          injection h with h1 _
          subst h1
          exact fun p hp => hp
        · rw [if_neg habort] at h
          injection h with h1 _
          subst h1
          exact fun p hp => mem_filePaths_writeFile.mpr (Or.inr hp)
    · rw [if_neg hg] at h
      injection h with h1 _
      subst h1
      exact fun p hp => hp

theorem runWalk_cons_ok (zs : Bytes → ZipBehavior) (gs : Bytes → GzBehavior) (delete : Bool)
    (dest : String) (fs : FS) (d n : String) (rest : List (String × String))
    (fs1 : FS) (s : Bool)
    (h : processFile zs gs delete dest fs d n = (fs1, .ok s)) :
    runWalk zs gs delete dest fs ((d, n) :: rest) = runWalk zs gs delete dest fs1 rest := by
  rw [runWalk, h]

theorem runWalk_cons_abort (zs : Bytes → ZipBehavior) (gs : Bytes → GzBehavior) (delete : Bool)
    (dest : String) (fs : FS) (d n : String) (rest : List (String × String))
    (fs1 : FS) (e : PyError)
    (h : processFile zs gs delete dest fs d n = (fs1, .abort e)) :
    runWalk zs gs delete dest fs ((d, n) :: rest) = (fs1, some e) := by
  rw [runWalk, h]

theorem runWalk_append (zs : Bytes → ZipBehavior) (gs : Bytes → GzBehavior) (delete : Bool)
    (dest : String) :
    ∀ (pre rest : List (String × String)) (fs fs1 : FS),
      runWalk zs gs delete dest fs pre = (fs1, none) →
      runWalk zs gs delete dest fs (pre ++ rest) = runWalk zs gs delete dest fs1 rest := by
  intro pre
  induction pre with
  | nil =>
    intro rest fs fs1 h
    injection h with h1 _
    subst h1
    rfl
  | cons dn pre ih =>
    intro rest fs fs1 h
    obtain ⟨d, n⟩ := dn
    rw [runWalk] at h
    rw [List.cons_append, runWalk]
    cases hpf : processFile zs gs delete dest fs d n with
    | mk fsm r =>
      rw [hpf] at h
      cases r with
      | ok s =>
        dsimp only at h ⊢
        exact ih rest fsm fs1 h
      | abort e =>
        dsimp only at h
        injection h with _ h2
        exact Option.noConfusion h2

/-! ## Claim theorems -/

/-- C1: for every file encountered during the walk that finishes its iteration
normally, the source file is deleted (absent from the resulting state) if and
only if the deletion flag is set and that specific file's extraction succeeded;
the guarded `os.remove` runs immediately after the file's own extraction, and a
file whose extraction failed is never deleted regardless of the flag. -/
theorem deletion_iff_flag_and_success
    (zs : Bytes → ZipBehavior) (gs : Bytes → GzBehavior) (delete : Bool) (dest : String)
    (fs : FS) (dirpath name : String) (fs1 : FS) (success : Bool)
    (hmem : pathJoin dirpath name ∈ filePaths fs)
    (h : processFile zs gs delete dest fs dirpath name = (fs1, StepResult.ok success)) :
    (pathJoin dirpath name ∉ filePaths fs1 ↔ delete = true ∧ success = true) := by
  rw [processFile] at h
  cases hes : extractStep zs gs dest fs dirpath name with
  | mk fsm rest =>
    obtain ⟨oe, sc⟩ := rest
    rw [hes] at h
    cases oe with
    | some e =>
      dsimp only at h
      injection h with _ h2
      exact StepResult.noConfusion h2
    | none =>
      dsimp only at h
      have hpres : pathJoin dirpath name ∈ filePaths fsm :=
        extractStep_preserves zs gs dest fs dirpath name fsm none sc hes _ hmem
      by_cases hds : (delete && sc) = true
      · rw [if_pos hds] at h
        injection h with hfs hres
        injection hres with hsc
        subst hsc
        subst hfs
        constructor
        · intro _
          simpa [Bool.and_eq_true] using hds
        · intro _ hmem'
          exact (mem_filePaths_removeFile.mp hmem').2 rfl
      · rw [if_neg hds] at h
        injection h with hfs hres
        injection hres with hsc
        subst hsc
        subst hfs
        constructor
        · intro hno
          exact absurd hpres hno
        · intro hrhs
          exact absurd (show (delete && sc) = true by rw [hrhs.1, hrhs.2]; rfl) hds

/-- Witness for `deletion_iff_flag_and_success`: a corrupt zip with the flag
off is not deleted. -/
theorem deletion_iff_flag_and_success_witness :
    (pathJoin "/r" "x.zip" ∉ filePaths (FS.mk [("/r/x.zip", [1])] ["/r"])
      ↔ false = true ∧ false = true) :=
  deletion_iff_flag_and_success (fun _ => ⟨[], false⟩) (fun _ => ⟨[], false⟩) false
    "/r/r_unzip" (FS.mk [("/r/x.zip", [1])] ["/r"]) "/r" "x.zip"
    (FS.mk [("/r/x.zip", [1])] ["/r"]) false (by decide) (by decide)

/-- C2: a missing/empty root argument, or a root that is not an existing
directory, makes `main` fail with `ValueError` / `NotADirectoryError` before
any side effect: the filesystem is returned unchanged. -/
theorem invalid_root_no_side_effects
    (zs : Bytes → ZipBehavior) (gs : Bytes → GzBehavior) (mkdirFails : Bool) (fuel : Nat)
    (walk : List (String × String)) (fs : FS) (root : String) (delete : Bool)
    (h : root = "" ∨ isDirFS fs root = false) :
    (mainFn zs gs mkdirFails fuel walk fs root delete).1 = fs ∧
      ((mainFn zs gs mkdirFails fuel walk fs root delete).2 = RunOutcome.valueError ∨
       (mainFn zs gs mkdirFails fuel walk fs root delete).2 = RunOutcome.notADirectoryError) := by
  by_cases hr : root = ""
  · subst hr
    exact ⟨rfl, Or.inl rfl⟩
  · have hd : isDirFS fs root = false := by
      rcases h with h1 | h1
      · exact absurd h1 hr
      · exact h1
    rw [mainFn, if_neg (by simp [hr]), if_pos (by simp [hd])]
    exact ⟨rfl, Or.inr rfl⟩

/-- Witness for `invalid_root_no_side_effects` at a path that is not a
directory. -/
theorem invalid_root_no_side_effects_witness :
    (mainFn (fun _ => ⟨[], false⟩) (fun _ => ⟨[], false⟩) false 5 []
        (FS.mk [] ["/r"]) "/nope" false).1 = FS.mk [] ["/r"] ∧
      ((mainFn (fun _ => ⟨[], false⟩) (fun _ => ⟨[], false⟩) false 5 []
          (FS.mk [] ["/r"]) "/nope" false).2 = RunOutcome.valueError ∨
       (mainFn (fun _ => ⟨[], false⟩) (fun _ => ⟨[], false⟩) false 5 []
          (FS.mk [] ["/r"]) "/nope" false).2 = RunOutcome.notADirectoryError) :=
  invalid_root_no_side_effects _ _ false 5 [] (FS.mk [] ["/r"]) "/nope" false
    (Or.inr (by decide))

/-- C3: the loop tries `basename(root) + "_unzip"` first and then the
candidates with suffixes `_1`, `_2`, … in increasing order; whenever it
returns, the chosen name does not exist yet (so a second run never reuses the
first run's directory), every earlier candidate was taken, and if the base
candidate was taken the result differs from it. -/
theorem output_directory_first_free_name (fs : FS) (root : String) (fuel : Nat) (d : String)
    (h : resolveDestination fs root fuel = some d) :
    pathExists fs d = false ∧
      (∃ k, d = destCand root (basename root ++ "_unzip") k ∧
        ∀ j < k, pathExists fs (destCand root (basename root ++ "_unzip") j) = true) ∧
      (pathExists fs (destCand root (basename root ++ "_unzip") 0) = true →
        d ≠ destCand root (basename root ++ "_unzip") 0) := by
  have h' : destLoop fs root (basename root ++ "_unzip")
      (destCand root (basename root ++ "_unzip") 0) (0 + 1) fuel = some d := h
  obtain ⟨k, hk1, hk2, hk3⟩ := destLoop_spec fs root _ fuel 0 d h'
  rw [Nat.zero_add] at hk1 hk2
  have hfalse : pathExists fs d = false := by rw [hk1]; exact hk2
  refine ⟨hfalse, ⟨k, hk1, ?_⟩, ?_⟩
  · intro j hj
    have hh := hk3 j hj
    rwa [Nat.zero_add] at hh
  · intro h0 hd0
    rw [hd0] at hfalse
    exact Bool.noConfusion (h0.symm.trans hfalse)

/-- Witness for `output_directory_first_free_name`: with `r_unzip` taken the
loop picks `r_unzip_1`. -/
theorem output_directory_first_free_name_witness :
    pathExists (FS.mk [] ["/r", "/r/r_unzip"]) "/r/r_unzip_1" = false ∧
      (∃ k, "/r/r_unzip_1" = destCand "/r" (basename "/r" ++ "_unzip") k ∧
        ∀ j < k, pathExists (FS.mk [] ["/r", "/r/r_unzip"])
          (destCand "/r" (basename "/r" ++ "_unzip") j) = true) ∧
      (pathExists (FS.mk [] ["/r", "/r/r_unzip"])
          (destCand "/r" (basename "/r" ++ "_unzip") 0) = true →
        "/r/r_unzip_1" ≠ destCand "/r" (basename "/r" ++ "_unzip") 0) :=
  output_directory_first_free_name (FS.mk [] ["/r", "/r/r_unzip"]) "/r" 5 "/r/r_unzip_1"
    (by decide)

/-- C6 counterexample: with `--delete` placed before the positional root
argument, `sys.argv[1]` is `--delete`, so the root stays empty and the program
fails with `ValueError` instead of running on the given directory. -/
theorem delete_before_root_rejected :
    cliMain (fun _ => ⟨[], false⟩) (fun _ => ⟨[], false⟩) false 5 []
        ["unzipper.py", "--delete", "/r"] (FS.mk [] ["/r"])
      = (FS.mk [] ["/r"], RunOutcome.valueError) ∧
    RunOutcome.valueError ≠ RunOutcome.completed :=
  ⟨by decide, by decide⟩

/-- C6 amended: `--delete` placed after the positional root argument sets the
deletion flag and the program runs on that root; placed before it, the root is
treated as missing and the run is rejected (see the counterexample). -/
theorem delete_after_root_runs
    (zs : Bytes → ZipBehavior) (gs : Bytes → GzBehavior) (mkdirFails : Bool) (fuel : Nat)
    (walk : List (String × String)) (prog root : String) (fs : FS)
    (hr : root ≠ "--delete") :
    cliMain zs gs mkdirFails fuel walk [prog, root, "--delete"] fs
      = mainFn zs gs mkdirFails fuel walk fs root true := by
  have hc : ([prog, root, "--delete"] : List String).contains "--delete" = true := by
    simp [List.contains_cons]
  simp only [cliMain]
  rw [hc, if_neg (by simp [hr])]

/-- Witness for `delete_after_root_runs`. -/
theorem delete_after_root_runs_witness :
    cliMain (fun _ => ⟨[], false⟩) (fun _ => ⟨[], false⟩) false 5 []
        ["unzipper.py", "/r", "--delete"] (FS.mk [] ["/r"])
      = mainFn (fun _ => ⟨[], false⟩) (fun _ => ⟨[], false⟩) false 5 []
          (FS.mk [] ["/r"]) "/r" true :=
  delete_after_root_runs _ _ false 5 [] "unzipper.py" "/r" (FS.mk [] ["/r"]) (by decide)

/-- C7: a file whose name ends in neither `.zip` nor `.gz` (exact,
case-sensitive suffix match) is neither extracted nor deleted: its iteration
leaves the filesystem unchanged and reports no success. -/
theorem unrecognized_suffix_untouched
    (zs : Bytes → ZipBehavior) (gs : Bytes → GzBehavior) (delete : Bool) (dest : String)
    (fs : FS) (dirpath name : String)
    (h1 : endsWithS name ".zip" = false) (h2 : endsWithS name ".gz" = false) :
    processFile zs gs delete dest fs dirpath name = (fs, StepResult.ok false) := by
  rw [processFile, extractStep, if_neg (by simp [h1]), if_neg (by simp [h2])]
  dsimp only
  rw [if_neg (by simp)]

/-- Witness for `unrecognized_suffix_untouched`: `archive.gz.bak` is not
treated as a gzip file even with deletion enabled. -/
theorem unrecognized_suffix_untouched_witness :
    processFile (fun _ => ⟨[], false⟩) (fun _ => ⟨[], false⟩) true "/r/r_unzip"
        (FS.mk [("/r/archive.gz.bak", [1])] ["/r"]) "/r" "archive.gz.bak"
      = (FS.mk [("/r/archive.gz.bak", [1])] ["/r"], StepResult.ok false) :=
  unrecognized_suffix_untouched _ _ true "/r/r_unzip"
    (FS.mk [("/r/archive.gz.bak", [1])] ["/r"]) "/r" "archive.gz.bak" (by decide) (by decide)

/-- C8: if creating the output directory fails, the run reports the failure
and returns before processing any file: the filesystem is unchanged, so
nothing was extracted, written or deleted. -/
theorem mkdir_failure_aborts_run
    (zs : Bytes → ZipBehavior) (gs : Bytes → GzBehavior) (fuel : Nat)
    (walk : List (String × String)) (fs : FS) (root : String) (delete : Bool) (d : String)
    (h : resolveDestination fs root fuel = some d) :
    parse_root_directory zs gs true fuel walk fs root delete
      = (fs, RunOutcome.mkdirFailed) := by
  rw [parse_root_directory, h]
  rfl

/-- Witness for `mkdir_failure_aborts_run`. -/
theorem mkdir_failure_aborts_run_witness :
    parse_root_directory (fun _ => ⟨[], false⟩) (fun _ => ⟨[], false⟩) true 5
        [("/r", "a.zip")] (FS.mk [("/r/a.zip", [0])] ["/r"]) "/r" true
      = (FS.mk [("/r/a.zip", [0])] ["/r"], RunOutcome.mkdirFailed) :=
  mkdir_failure_aborts_run _ _ 5 [("/r", "a.zip")] (FS.mk [("/r/a.zip", [0])] ["/r"])
    "/r" true "/r/r_unzip" (by decide)

/-- C4: a `.zip` file that fails structural validation is recorded as a
failure and skipped with no exception escaping the run, while the walk
continues: with one valid and one corrupted `.zip`, the run completes
normally, the valid archive's entries all appear in the output directory, and
both source files survive (the corrupted one is merely skipped). -/
theorem corrupt_zip_isolated
    (zs : Bytes → ZipBehavior) (gs : Bytes → GzBehavior) (dest : String) (fs : FS)
    (d1 d2 : String) (c1 c2 : Bytes) (E : List (String × Bytes))
    (h1 : readFile fs (pathJoin d1 "good.zip") = some c1)
    (h2 : readFile fs (pathJoin d2 "bad.zip") = some c2)
    (hz1 : zs c1 = ⟨E, true⟩)
    (hz2 : zs c2 = ⟨[], false⟩)
    (hnd : (E.map (fun e => pathJoin dest (sanitizeEntryName e.1))).Nodup) :
    runWalk zs gs false dest fs [(d2, "bad.zip"), (d1, "good.zip")]
        = (extractAll dest E fs, none) ∧
      (∀ e ∈ E, readFile (extractAll dest E fs)
        (pathJoin dest (sanitizeEntryName e.1)) = some e.2) ∧
      pathJoin d2 "bad.zip" ∈ filePaths (extractAll dest E fs) ∧
      pathJoin d1 "good.zip" ∈ filePaths (extractAll dest E fs) := by
  have hstep2 : extractStep zs gs dest fs d2 "bad.zip" = (fs, none, false) := by
    rw [extractStep, if_pos (by decide), h2]
    dsimp only
    rw [hz2]
    rfl
  have hpf2 : processFile zs gs false dest fs d2 "bad.zip" = (fs, .ok false) := by
    rw [processFile, hstep2]
    dsimp only
    rw [if_neg (by simp)]
  have hstep1 : extractStep zs gs dest fs d1 "good.zip"
      = (extractAll dest E fs, none, true) := by
    rw [extractStep, if_pos (by decide), h1]
    dsimp only
    rw [hz1]
  have hpf1 : processFile zs gs false dest fs d1 "good.zip"
      = (extractAll dest E fs, .ok true) := by
    rw [processFile, hstep1]
    dsimp only
    rw [if_neg (by simp)]
  refine ⟨?_, ?_, ?_, ?_⟩
  · rw [runWalk_cons_ok zs gs false dest fs d2 "bad.zip" _ fs false hpf2,
      runWalk_cons_ok zs gs false dest fs d1 "good.zip" _ (extractAll dest E fs) true hpf1]
    rfl
  · intro e he
    have he' : (e.1, e.2) ∈ E := by rw [Prod.mk.eta]; exact he
    exact readFile_extractAll_mem hnd he'
  · exact mem_filePaths_extractAll.mpr (Or.inl (mem_of_readFile h2))
  · exact mem_filePaths_extractAll.mpr (Or.inl (mem_of_readFile h1))

/-- Witness for `corrupt_zip_isolated`: one valid and one corrupted zip. -/
theorem corrupt_zip_isolated_witness :
    runWalk (fun cc => if cc == [0] then ZipBehavior.mk [("sub/x.txt", [7])] true
        else ZipBehavior.mk [] false) (fun _ => ⟨[], false⟩) false "/r/r_unzip"
        (FS.mk [("/a/good.zip", [0]), ("/b/bad.zip", [1])] ["/r"])
        [("/b", "bad.zip"), ("/a", "good.zip")]
      = (extractAll "/r/r_unzip" [("sub/x.txt", [7])]
          (FS.mk [("/a/good.zip", [0]), ("/b/bad.zip", [1])] ["/r"]), none) ∧
    (∀ e ∈ [(("sub/x.txt" : String), ([7] : Bytes))],
      readFile (extractAll "/r/r_unzip" [("sub/x.txt", [7])]
          (FS.mk [("/a/good.zip", [0]), ("/b/bad.zip", [1])] ["/r"]))
        (pathJoin "/r/r_unzip" (sanitizeEntryName e.1)) = some e.2) ∧
    pathJoin "/b" "bad.zip" ∈ filePaths (extractAll "/r/r_unzip" [("sub/x.txt", [7])]
      (FS.mk [("/a/good.zip", [0]), ("/b/bad.zip", [1])] ["/r"])) ∧
    pathJoin "/a" "good.zip" ∈ filePaths (extractAll "/r/r_unzip" [("sub/x.txt", [7])]
      (FS.mk [("/a/good.zip", [0]), ("/b/bad.zip", [1])] ["/r"])) :=
  corrupt_zip_isolated
    (fun cc => if cc == [0] then ZipBehavior.mk [("sub/x.txt", [7])] true
      else ZipBehavior.mk [] false)
    (fun _ => ⟨[], false⟩) "/r/r_unzip"
    (FS.mk [("/a/good.zip", [0]), ("/b/bad.zip", [1])] ["/r"])
    "/a" "/b" [0] [1] [("sub/x.txt", [7])]
    (by decide) (by decide) (by decide) (by decide) (by decide)

/-- C5: a `.gz` file whose gzip stream decompresses to `b` is written to the
output directory under the original name with the trailing three characters
(the `.gz` suffix, by the stated hypothesis) removed, and the output file's
content is exactly `b`. -/
theorem gz_outputs_stripped_name_content
    (zs : Bytes → ZipBehavior) (gs : Bytes → GzBehavior) (delete : Bool) (dest : String)
    (fs : FS) (dirpath name : String) (c b : Bytes)
    (hzip : endsWithS name ".zip" = false)
    (hgz : endsWithS name ".gz" = true)
    (hread : readFile fs (pathJoin dirpath name) = some c)
    (hgs : gs c = ⟨b, true⟩)
    (hslash : endsWithS (pathJoin dest (dropRightS name 3)) "/" = false)
    (hdir : isDirFS fs (pathJoin dest (dropRightS name 3)) = false)
    (hne : pathJoin dirpath name ≠ pathJoin dest (dropRightS name 3)) :
    ∃ fs1, processFile zs gs delete dest fs dirpath name = (fs1, StepResult.ok true) ∧
      readFile fs1 (pathJoin dest (dropRightS name 3)) = some b ∧
      dropRightS name 3 ++ ".gz" = name := by
  have hstep : extractStep zs gs dest fs dirpath name
      = (writeFile fs (pathJoin dest (dropRightS name 3)) b, none, true) := by
    rw [extractStep, if_neg (by simp [hzip]), if_pos hgz, hread]
    dsimp only
    rw [if_neg (by simp [hslash, hdir]), hgs]
  have hname : dropRightS name 3 ++ ".gz" = name :=
    dropRightS_append_of_endsWithS name ".gz" hgz
  cases delete with
  | false =>
    refine ⟨writeFile fs (pathJoin dest (dropRightS name 3)) b, ?_, ?_, hname⟩
    · rw [processFile, hstep]
      dsimp only
      rw [if_neg (by simp)]
    · exact readFile_writeFile_self
  | true =>
    refine ⟨removeFile (writeFile fs (pathJoin dest (dropRightS name 3)) b)
        (pathJoin dirpath name), ?_, ?_, hname⟩
    · rw [processFile, hstep]
      dsimp only
      rw [if_pos (show (true && true) = true from rfl)]
    · rw [readFile_removeFile_ne (Ne.symm hne)]
      exact readFile_writeFile_self

/-- Witness for `gz_outputs_stripped_name_content`: `data.txt.gz` yields
`data.txt` with the decompressed content. -/
theorem gz_outputs_stripped_name_content_witness :
    ∃ fs1, processFile (fun _ => ⟨[], false⟩) (fun _ => ⟨[5, 6], true⟩) false "/r/r_unzip"
        (FS.mk [("/r/data.txt.gz", [9])] ["/r", "/r/r_unzip"]) "/r" "data.txt.gz"
      = (fs1, StepResult.ok true) ∧
      readFile fs1 (pathJoin "/r/r_unzip" (dropRightS "data.txt.gz" 3)) = some [5, 6] ∧
      dropRightS "data.txt.gz" 3 ++ ".gz" = "data.txt.gz" :=
  gz_outputs_stripped_name_content (fun _ => ⟨[], false⟩) (fun _ => ⟨[5, 6], true⟩) false
    "/r/r_unzip" (FS.mk [("/r/data.txt.gz", [9])] ["/r", "/r/r_unzip"]) "/r" "data.txt.gz"
    [9] [5, 6] (by decide) (by decide) (by decide) (by decide) (by decide) (by decide)
    (by decide)

/-- C9: with the deletion flag off, the successful-mkdir run removes no file:
every file present before is present after, every new file path lies inside
the output directory (it extends `d ++ "/"`), and the only directory change is
the creation of the output directory `d`. -/
theorem no_delete_flag_frame
    (zs : Bytes → ZipBehavior) (gs : Bytes → GzBehavior) (fuel : Nat)
    (walk : List (String × String)) (fs : FS) (root d : String) (fs1 : FS) (out : RunOutcome)
    (hres : resolveDestination fs root fuel = some d)
    (hd1 : d ≠ "") (hd2 : endsWithS d "/" = false)
    (hnames : ∀ p ∈ walk, startsWithS p.2 "/" = false)
    (hrun : parse_root_directory zs gs false fuel walk fs root false = (fs1, out)) :
    (∀ q ∈ filePaths fs, q ∈ filePaths fs1) ∧
    (∀ q ∈ filePaths fs1, q ∉ filePaths fs → startsWithS q (d ++ "/") = true) ∧
    fs1.dirs = d :: fs.dirs := by
  rw [parse_root_directory, hres] at hrun
  dsimp only at hrun
  rw [if_neg (by simp)] at hrun
  have hfr := runWalk_noDelete_frame zs gs d hd1 hd2 walk (mkdirFS fs d) hnames
  cases hw : runWalk zs gs false d (mkdirFS fs d) walk with
  | mk fs2 oe =>
    rw [hw] at hrun hfr
    have hfs2 : fs2 = fs1 := by
      cases oe with
      | none =>
        dsimp only at hrun
        injection hrun with hh _
      | some e =>
        dsimp only at hrun
        injection hrun with hh _
    subst hfs2
    exact ⟨hfr.1, hfr.2.1, hfr.2.2⟩

/-- Witness for `no_delete_flag_frame`: a run over one zip file with the flag
off keeps the source file and adds only files under the new directory. -/
theorem no_delete_flag_frame_witness :
    (∀ q ∈ filePaths (FS.mk [("/r/a.zip", [0])] ["/r"]),
      q ∈ filePaths (FS.mk [("/r/r_unzip/x.txt", [3]), ("/r/a.zip", [0])]
        ["/r/r_unzip", "/r"])) ∧
    (∀ q ∈ filePaths (FS.mk [("/r/r_unzip/x.txt", [3]), ("/r/a.zip", [0])]
        ["/r/r_unzip", "/r"]),
      q ∉ filePaths (FS.mk [("/r/a.zip", [0])] ["/r"]) →
        startsWithS q ("/r/r_unzip" ++ "/") = true) ∧
    (FS.mk [("/r/r_unzip/x.txt", [3]), ("/r/a.zip", [0])] ["/r/r_unzip", "/r"]).dirs
      = "/r/r_unzip" :: (FS.mk [("/r/a.zip", [0])] ["/r"]).dirs :=
  no_delete_flag_frame (fun _ => ⟨[("x.txt", [3])], true⟩) (fun _ => ⟨[], false⟩) 5
    [("/r", "a.zip")] (FS.mk [("/r/a.zip", [0])] ["/r"]) "/r" "/r/r_unzip"
    (FS.mk [("/r/r_unzip/x.txt", [3]), ("/r/a.zip", [0])] ["/r/r_unzip", "/r"])
    RunOutcome.completed (by decide) (by decide) (by decide) (by decide) (by decide)

/-- C10: for a file named exactly `.gz`, stripping the last three characters
leaves an empty base name, the gzip branch's output path is the output
directory itself (with a trailing separator), and opening it for writing
raises an exception that is not `gzip.BadGzipFile`; it is not caught, so the
rest of the walk is discarded and the whole run aborts. -/
theorem bare_gz_name_aborts_run
    (zs : Bytes → ZipBehavior) (gs : Bytes → GzBehavior) (delete : Bool) (dest : String)
    (fs fs1 : FS) (pre rest : List (String × String)) (d : String) (c : Bytes)
    (hpre : runWalk zs gs delete dest fs pre = (fs1, none))
    (hread : readFile fs1 (pathJoin d ".gz") = some c)
    (hd1 : dest ≠ "") (hd2 : endsWithS dest "/" = false) :
    pathJoin dest (dropRightS ".gz" 3) = dest ++ "/" ∧
    runWalk zs gs delete dest fs (pre ++ (d, ".gz") :: rest)
      = (fs1, some PyError.isADirectory) := by
  have hout : pathJoin dest (dropRightS ".gz" 3) = dest ++ "/" := by
    have h0 : dropRightS ".gz" 3 = "" := by decide
    rw [h0, pathJoin, if_neg (by decide), if_neg (by simp [hd1, hd2])]
    exact append_empty_str (dest ++ "/")
  refine ⟨hout, ?_⟩
  rw [runWalk_append zs gs delete dest pre ((d, ".gz") :: rest) fs fs1 hpre]
  have hstep : extractStep zs gs dest fs1 d ".gz" = (fs1, some PyError.isADirectory, false) := by
    rw [extractStep, if_neg (by decide), if_pos (by decide), hread]
    dsimp only
    rw [if_pos (by rw [hout, endsWithS_append_slash]; rfl)]
  have hpf : processFile zs gs delete dest fs1 d ".gz"
      = (fs1, .abort PyError.isADirectory) := by
    rw [processFile, hstep]
  exact runWalk_cons_abort zs gs delete dest fs1 d ".gz" rest fs1 PyError.isADirectory hpf

/-- Witness for `bare_gz_name_aborts_run`: a file named `.gz` makes the run
abort with `IsADirectoryError`, skipping the rest of the walk. -/
theorem bare_gz_name_aborts_run_witness :
    pathJoin "/r/r_unzip" (dropRightS ".gz" 3) = "/r/r_unzip" ++ "/" ∧
    runWalk (fun _ => ⟨[], false⟩) (fun _ => ⟨[], false⟩) true "/r/r_unzip"
        (FS.mk [("/r/.gz", [1])] ["/r", "/r/r_unzip"])
        ([] ++ ("/r", ".gz") :: [("/r", "other.txt")])
      = (FS.mk [("/r/.gz", [1])] ["/r", "/r/r_unzip"], some PyError.isADirectory) :=
  bare_gz_name_aborts_run (fun _ => ⟨[], false⟩) (fun _ => ⟨[], false⟩) true "/r/r_unzip"
    (FS.mk [("/r/.gz", [1])] ["/r", "/r/r_unzip"])
    (FS.mk [("/r/.gz", [1])] ["/r", "/r/r_unzip"]) [] [("/r", "other.txt")] "/r" [1]
    (by decide) (by decide) (by decide) (by decide)

end Unzipper
